import Mathlib

/-!
Shallow embedding of `src/whisper_streaming/online_asr.py` (HypothesisBuffer,
OnlineASRProcessor, VACOnlineASRProcessor) and proofs about the frozen claims.

Timestamps (Python floats holding seconds) are modelled as rationals `ℚ`;
audio samples as lists of rationals; the black-box collaborators (recognizer,
tokenizer, VAD) are modelled as parameters carrying their replies, following
the external-interface contracts.  Python list slicing with possibly negative
indices is modelled explicitly (`pyIdx`, `pySliceFrom`, ...), and Python
`int()` truncation toward zero is `pyInt`.  Definitions named after source
methods are direct transcriptions of the Python; definitions whose name
starts with `spec` transcribe the specification text instead, for comparison.
-/

namespace OnlineAsr

/-- A timed word `(a, b, t)` = (begin seconds, end seconds, text), as the
source handles hypothesis tuples `(a, b, t)` / `(na, nb, nt)`. -/
structure W where
  a : ℚ
  b : ℚ
  t : String
deriving DecidableEq, Repr

/-- State of `HypothesisBuffer` (source lines 7-17): committed words still in
the window, the uncommitted tail of the previous iteration, the scratch list
`new`, and the last committed time/word. -/
structure HB where
  commited_in_buffer : List W
  buffer : List W
  new : List W
  last_commited_time : ℚ
  last_commited_word : Option String
deriving DecidableEq, Repr

/-- A fresh `HypothesisBuffer` as built by `__init__`. -/
def hbInit : HB :=
  { commited_in_buffer := [], buffer := [], new := [],
    last_commited_time := 0, last_commited_word := none }

/-- Timestamp shift performed at the top of `insert`:
`new = [(a+offset, b+offset, t) for a, b, t in new]`. -/
def insertShift (ws : List W) (off : ℚ) : List W :=
  ws.map (fun w => W.mk (w.a + off) (w.b + off) w.t)

/-- The commit-horizon filter of `insert`:
`self.new = [(a,b,t) for a,b,t in new if a > self.last_commited_time - 0.1]`.
This is the content of `new` prior to boundary de-duplication. -/
def HB.insertKeep (s : HB) (ws : List W) (off : ℚ) : List W :=
  (insertShift ws off).filter (fun w => decide (s.last_commited_time - 1/10 < w.a))

/-- The n-gram comparison of the de-duplication loop for a given `i`:
the last `i` committed texts joined by single spaces versus the first `i`
texts of `new` joined by single spaces. -/
def ngramEq (cib nw : List W) (i : Nat) : Bool :=
  decide (String.intercalate " " ((cib.drop (cib.length - i)).map W.t)
    = String.intercalate " " ((nw.take i).map W.t))

/-- The de-duplication search: `for i in range(1, min(min(cn, nn), 5) + 1)`,
breaking at the first matching n-gram. -/
def firstMatch (cib nw : List W) : Option Nat :=
  (List.range' 1 (min (min cib.length nw.length) 5)).find? (fun i => ngramEq cib nw i)

/-- Boundary de-duplication applied to `new` after the filter (source lines
26-46): only when `new` is non-empty, `|new[0].a - last_commited_time| < 1`
and `commited_in_buffer` is non-empty; on the first matching n-gram of size
`i`, the first `i` words are popped from `new`. -/
def dedup (cib : List W) (lct : ℚ) (nw : List W) : List W :=
  match nw with
  | [] => []
  | w :: rest =>
    if abs (w.a - lct) < 1 ∧ cib ≠ [] then
      match firstMatch cib (w :: rest) with
      | some i => (w :: rest).drop i
      | none => w :: rest
    else w :: rest

/-- `HypothesisBuffer.insert(self, new, offset)` (source lines 19-46). -/
def HB.insert (s : HB) (ws : List W) (off : ℚ) : HB :=
  { s with new := dedup s.commited_in_buffer s.last_commited_time (s.insertKeep ws off) }

/-- The commit loop of `flush` (source lines 52-65): walks `new` and `buffer`
in lockstep, committing while the texts agree.  Returns the committed words,
the rest of `new` and the rest of `buffer`. -/
def flushRec : List W → List W → List W × List W × List W
  | [], buf => ([], [], buf)
  | n :: ns, [] => ([], n :: ns, [])
  | n :: ns, bw :: bs =>
    if n.t = bw.t then
      let r := flushRec ns bs
      (n :: r.1, r.2.1, r.2.2)
    else ([], n :: ns, bw :: bs)

/-- `HypothesisBuffer.flush(self)` (source lines 48-69): commit the agreeing
prefix, updating `last_commited_word` / `last_commited_time` per committed
word (modelled by folding the sequential assignments), then
`buffer := new-remainder`, `new := []`, extend `commited_in_buffer`, and
return the commit. -/
def HB.flush (s : HB) : List W × HB :=
  let r := flushRec s.new s.buffer
  (r.1,
    { commited_in_buffer := s.commited_in_buffer ++ r.1
      buffer := r.2.1
      new := []
      last_commited_time := r.1.foldl (fun _ w => w.b) s.last_commited_time
      last_commited_word := r.1.foldl (fun _ w => some w.t) s.last_commited_word })

/-- `HypothesisBuffer.pop_commited(self, time)` (source lines 71-74): drop
from the front of `commited_in_buffer` while the first word ends at or
before `time`. -/
def HB.pop_commited (s : HB) (time : ℚ) : HB :=
  { s with commited_in_buffer :=
      s.commited_in_buffer.dropWhile (fun w => decide (w.b ≤ time)) }

/-- `HypothesisBuffer.complete(self)` (source lines 76-77). -/
def HB.complete (s : HB) : List W :=
  s.buffer

/-- Length of the longest common prefix of two word lists compared purely by
text — the quantity the specification says `flush` commits. -/
def specTextLcp : List W → List W → Nat
  | nw :: ns, bw :: bs => if nw.t = bw.t then specTextLcp ns bs + 1 else 0
  | _, _ => 0

theorem flushRec_eq (n : List W) : ∀ b : List W,
    flushRec n b = (n.take (specTextLcp n b), n.drop (specTextLcp n b), b.drop (specTextLcp n b)) := by
  induction n with
  | nil => intro b; cases b <;> simp [flushRec, specTextLcp]
  | cons w ns ih =>
    intro b
    cases b with
    | nil => simp [flushRec, specTextLcp]
    | cons bw bs =>
      by_cases h : w.t = bw.t
      · simp [flushRec, specTextLcp, h, ih bs]
      · simp [flushRec, specTextLcp, h]

theorem foldl_assign {β : Type} (g : W → β) (init : β) :
    ∀ l : List W, l.foldl (fun _ w => g w) init = (l.getLast?).elim init g := by
  intro l
  induction l generalizing init with
  | nil => simp
  | cons w ws ih =>
    cases ws with
    | nil => simp
    | cons w2 ws2 => simpa [List.getLast?_cons_cons] using ih (g w)

/-- C1: for every `HypothesisBuffer` state, `flush()` commits exactly the
longest common text prefix of `new` and `buffer`, taking the triples from
`new` in order, updating `last_commited_time` / `last_commited_word` from the
committed triples, replacing `buffer` by the remaining suffix of `new`,
clearing `new`, appending the commits to `commited_in_buffer` and returning
them; in particular with buffer `[(0, 0.5, hello), (0.5, 1.0, word)]` and new
`[(0, 0.5, hello), (0.5, 1.0, world)]` only `hello` is committed. -/
theorem C1_flush_commits_text_lcp :
    (∀ s : HB, s.flush =
      ((s.new.take (specTextLcp s.new s.buffer)),
       { commited_in_buffer := s.commited_in_buffer ++ s.new.take (specTextLcp s.new s.buffer)
         buffer := s.new.drop (specTextLcp s.new s.buffer)
         new := []
         last_commited_time :=
           ((s.new.take (specTextLcp s.new s.buffer)).getLast?).elim s.last_commited_time W.b
         last_commited_word :=
           ((s.new.take (specTextLcp s.new s.buffer)).getLast?).elim s.last_commited_word
             (fun w => some w.t) }))
    ∧ (HB.flush
        { commited_in_buffer := []
          buffer := [⟨0, 1/2, "hello"⟩, ⟨1/2, 1, "word"⟩]
          new := [⟨0, 1/2, "hello"⟩, ⟨1/2, 1, "world"⟩]
          last_commited_time := 0
          last_commited_word := none }).1 = [⟨0, 1/2, "hello"⟩] := by
  constructor
  · intro s
    simp [HB.flush, flushRec_eq, foldl_assign]
  · simp [HB.flush, flushRec, specTextLcp]

/-- Content of `new` prior to de-duplication as the claim words it: every
shifted candidate with `begin < last_commited_time - 0.1` is discarded and
EVERY OTHER candidate is kept (so a candidate with
`begin = last_commited_time - 0.1` exactly is kept). -/
def specInsertKeepClaim (lct : ℚ) (ws : List W) (off : ℚ) : List W :=
  (insertShift ws off).filter (fun w => decide (¬ w.a < lct - 1/10))

/-- Content of `new` prior to de-duplication as amended: kept iff
`begin > last_commited_time - 0.1` strictly. -/
def specInsertKeepAmended (lct : ℚ) (ws : List W) (off : ℚ) : List W :=
  (insertShift ws off).filter (fun w => decide (lct - 1/10 < w.a))

/-- C7 counterexample: on a fresh buffer (`last_commited_time = 0`), a
candidate with `begin = -0.1` sits exactly on the horizon: the claim keeps it
(its begin is not `< -0.1`), but the source filter `a > last_commited_time -
0.1` discards it. -/
theorem C7_counterexample :
    HB.insertKeep hbInit [⟨-1/10, 1/5, "x"⟩] 0
      ≠ specInsertKeepClaim hbInit.last_commited_time [⟨-1/10, 1/5, "x"⟩] 0 := by
  norm_num [HB.insertKeep, specInsertKeepClaim, insertShift, hbInit, List.filter]

/-- C7 amended: `insert(new_words, offset)` shifts every timestamp of
`new_words` by `offset`, and prior to boundary de-duplication `new` contains
exactly the shifted candidates whose begin time is strictly above the commit
horizon: every candidate with `begin ≤ last_commited_time - 0.1` is
discarded and every candidate with `begin > last_commited_time - 0.1` is
kept; the stored `new` is that list after de-duplication. -/
theorem C7_insert_amended :
    ∀ (s : HB) (ws : List W) (off : ℚ),
      s.insertKeep ws off
          = (ws.map (fun w => W.mk (w.a + off) (w.b + off) w.t)).filter
              (fun w => decide (s.last_commited_time - 1/10 < w.a))
        ∧ (s.insert ws off).new
            = dedup s.commited_in_buffer s.last_commited_time
                (specInsertKeepAmended s.last_commited_time ws off) := by
  intro s ws off
  exact ⟨rfl, rfl⟩

/-- One call in the lifetime of a `HypothesisBuffer`: either
`insert(new_words, offset)` or `flush()`. -/
inductive HBOp where
  | ins (ws : List W) (off : ℚ)
  | fl
deriving Repr

/-- Effect of one call on the buffer state. -/
def HB.step (s : HB) : HBOp → HB
  | HBOp.ins ws off => s.insert ws off
  | HBOp.fl => (s.flush).2

/-- A finite sequence of `insert` / `flush` calls, run from a state. -/
def HB.exec (s : HB) (ops : List HBOp) : HB :=
  ops.foldl HB.step s

/-- An operation is well formed when every inserted word satisfies
`begin ≤ end` (the data-model invariant `0 ≤ begin_s ≤ end_s` of the spec). -/
def wfOp : HBOp → Prop
  | HBOp.ins ws _ => ∀ w ∈ ws, w.a ≤ w.b
  | HBOp.fl => True

/-- Internal invariant: every word waiting in `new` begins strictly after the
commit horizon and is well formed. -/
def newInv (s : HB) : Prop :=
  ∀ w ∈ s.new, s.last_commited_time - 1/10 < w.a ∧ w.a ≤ w.b

theorem mem_dedup {cib : List W} {lct : ℚ} {nw : List W} {w : W}
    (h : w ∈ dedup cib lct nw) : w ∈ nw := by
  cases nw with
  | nil => simp [dedup] at h
  | cons x rest =>
    simp only [dedup] at h
    split at h
    · cases hf : firstMatch cib (x :: rest) with
      | some i => rw [hf] at h; exact List.mem_of_mem_drop h
      | none => rw [hf] at h; exact h
    · exact h

theorem step_preserves (s : HB) (op : HBOp) (hwf : wfOp op) (hinv : newInv s) :
    newInv (s.step op) ∧
      s.last_commited_time - 1/10 < (s.step op).last_commited_time := by
  cases op with
  | ins ws off =>
    constructor
    · intro w hw
      have hw1 : w ∈ s.insertKeep ws off := mem_dedup hw
      rw [HB.insertKeep, List.mem_filter] at hw1
      obtain ⟨hmem, hkeep⟩ := hw1
      refine ⟨by simpa using hkeep, ?_⟩
      rw [insertShift, List.mem_map] at hmem
      obtain ⟨w0, hw0, rfl⟩ := hmem
      exact add_le_add_right (hwf w0 hw0) off
    · simp [HB.step, HB.insert]
  | fl =>
    constructor
    · intro w hw
      simp [HB.step, HB.flush] at hw
    · simp only [HB.step, HB.flush, flushRec_eq, foldl_assign]
      cases hlast : (s.new.take (specTextLcp s.new s.buffer)).getLast? with
      | none => simp
      | some w =>
        have hmem : w ∈ s.new := by
          obtain ⟨hne, hw⟩ :=
            List.mem_getLast?_eq_getLast (Option.mem_def.mpr hlast)
          exact List.mem_of_mem_take (hw ▸ List.getLast_mem hne)
        have h2 := hinv w hmem
        simp
        linarith [h2.1, h2.2]

theorem exec_newInv (ops : List HBOp) : ∀ s : HB, newInv s →
    (∀ o ∈ ops, wfOp o) → newInv (s.exec ops) := by
  induction ops with
  | nil => intro s h _; simpa [HB.exec] using h
  | cons op rest ih =>
    intro s h hwf
    have h1 := step_preserves s op (hwf op (by simp)) h
    have : HB.exec s (op :: rest) = HB.exec (s.step op) rest := by
      simp [HB.exec, List.foldl_cons]
    rw [this]
    exact ih _ h1.1 (fun o ho => hwf o (by simp [ho]))

theorem hbInit_newInv : newInv hbInit := by
  intro w hw
  simp [hbInit] at hw

/-- The trace refuting C5: two agreeing passes commit `a` with end time 1.0;
then two agreeing passes insert `x` with begin 0.95 (inside the 0.1 horizon
tolerance) and end 0.96, whose commit drags `last_commited_time` back down
to 0.96. -/
def c5ops : List HBOp :=
  [HBOp.ins [⟨1/2, 1, "a"⟩] 0, HBOp.fl,
   HBOp.ins [⟨1/2, 1, "a"⟩] 0, HBOp.fl,
   HBOp.ins [⟨19/20, 24/25, "x"⟩] 0, HBOp.fl,
   HBOp.ins [⟨19/20, 24/25, "x"⟩] 0, HBOp.fl]

/-- C5 counterexample: `last_commited_time` is NOT non-decreasing across the
lifetime of a `HypothesisBuffer`: after the first four calls of `c5ops` it is
1, after all eight calls it is 24/25 < 1. -/
theorem C5_counterexample :
    (hbInit.exec (c5ops.take 4)).last_commited_time = 1
    ∧ (hbInit.exec c5ops).last_commited_time = 24/25
    ∧ ((24 : ℚ)/25 < 1) := by
  refine ⟨?_, ?_, by norm_num⟩
  · norm_num [HB.exec, c5ops, HB.step, HB.insert, HB.insertKeep, insertShift, hbInit,
      List.filter, dedup, firstMatch, ngramEq, List.range', List.find?, HB.flush,
      flushRec, abs_lt, String.intercalate, String.join]
  · norm_num [HB.exec, c5ops, HB.step, HB.insert, HB.insertKeep, insertShift, hbInit,
      List.filter, dedup, firstMatch, ngramEq, List.range', List.find?, HB.flush,
      flushRec, abs_lt, String.intercalate, String.join]

/-- C5 amended: `last_commited_time` can decrease across the lifetime of a
`HypothesisBuffer`; what holds is that, provided every inserted word has
`begin ≤ end`, each single `insert` or `flush` call lowers
`last_commited_time` by strictly less than the 0.1 commit-horizon tolerance
(any committed word must begin after `last_commited_time - 0.1`). -/
theorem C5_lct_step_bound :
    ∀ (ops : List HBOp) (op : HBOp),
      (∀ o ∈ ops ++ [op], wfOp o) →
      (hbInit.exec ops).last_commited_time - 1/10
        < (hbInit.exec (ops ++ [op])).last_commited_time := by
  intro ops op hwf
  have hinv : newInv (hbInit.exec ops) :=
    exec_newInv ops hbInit hbInit_newInv (fun o ho => hwf o (by simp [ho]))
  have hstep := step_preserves (hbInit.exec ops) op (hwf op (by simp)) hinv
  have : hbInit.exec (ops ++ [op]) = (hbInit.exec ops).step op := by
    simp [HB.exec, List.foldl_append]
  rw [this]
  exact hstep.2

/-- C5 witness: a concrete application of the step bound, at the trace
consisting of a single `flush` on a fresh buffer. -/
theorem C5_lct_step_bound_witness :
    (∀ o ∈ ([] : List HBOp) ++ [HBOp.fl], wfOp o) ∧
      (hbInit.exec []).last_commited_time - 1/10
        < (hbInit.exec ([] ++ [HBOp.fl])).last_commited_time := by
  refine ⟨?_, C5_lct_step_bound [] HBOp.fl ?_⟩ <;>
    simp [wfOp]

/-- Python `int()` truncation toward zero on a rational. -/
def pyInt (q : ℚ) : Int :=
  if 0 ≤ q then ⌊q⌋ else ⌈q⌉

/-- Normalisation of a (possibly negative) Python slice index against a list
length: a negative index counts from the end of the list, clamped at 0. -/
def pyIdx (len : Nat) (i : Int) : Nat :=
  if 0 ≤ i then i.toNat else ((len : Int) + i).toNat

/-- Python `l[i:]` (slice from a possibly negative index to the end). -/
def pySliceFrom {α : Type} (l : List α) (i : Int) : List α :=
  l.drop (pyIdx l.length i)

/-- Python `l[:j]`. -/
def pySliceTo {α : Type} (l : List α) (j : Int) : List α :=
  l.take (pyIdx l.length j)

/-- Python `l[i:j]`. -/
def pySlice {α : Type} (l : List α) (i j : Int) : List α :=
  (l.take (pyIdx l.length j)).drop (pyIdx l.length i)

/-- State (plus fixed configuration) of `OnlineASRProcessor` (source lines
80-131).  `sep` stands for the recognizer attribute `asr.sep`;
`buffer_trimming_way` / `buffer_trimming_sec` come from the constructor
tuple `buffer_trimming`.  Audio samples are rationals at 16 kHz. -/
structure OState where
  sep : String
  buffer_trimming_way : String
  buffer_trimming_sec : ℚ
  audio_buffer : List ℚ
  transcript_buffer : HB
  buffer_time_offset : ℚ
  commited : List W
deriving DecidableEq, Repr

/-- `OnlineASRProcessor.init(self, offset=None)` (source lines 123-131):
reset audio, hypothesis buffer and committed list; start at `offset`
(0 when absent) and seed `last_commited_time` with it. -/
def OState.initAt (s : OState) (offset : Option ℚ) : OState :=
  { s with audio_buffer := []
           transcript_buffer := { hbInit with last_commited_time := offset.getD 0 }
           buffer_time_offset := offset.getD 0
           commited := [] }

/-- `OnlineASRProcessor.insert_audio_chunk(self, audio)` (source lines
133-134). -/
def OState.insert_audio_chunk (s : OState) (audio : List ℚ) : OState :=
  { s with audio_buffer := s.audio_buffer ++ audio }

/-- `OnlineASRProcessor.concatenate_tsw(self, tsw, sep=None, offset=0)`
(source lines 322-341), at its only used arguments (`sep = self.asr.sep`,
`offset = 0`): join the texts with the separator; begin/end are those of the
first/last word, or `None` for the empty list. -/
def concatenate_tsw (sep : String) (tsw : List W) : Option ℚ × Option ℚ × String :=
  let t := String.intercalate sep (tsw.map W.t)
  match tsw with
  | [] => (none, none, t)
  | w :: _ => (some w.a, some ((tsw.getLastD w).b), t)

/-- The backward walk of `prompt` (source lines 140-142): starting from
`k = max(0, len(commited) - 1)`, decrement `k` while `k > 0` and
`commited[k-1].end > buffer_time_offset`, over the list `es` of committed
end times. -/
def walkLoop (es : List ℚ) (off : ℚ) : Nat → Nat
  | 0 => 0
  | k + 1 =>
    match es[k]? with
    | some e => if off < e then walkLoop es off k else k + 1
    | none => k + 1

/-- The 200-character prompt-suffix loop of `prompt` (source lines 146-151):
the input is the reversed candidate-text list (`p.pop(-1)` walks `p` from
the end) and `l` the accumulated length; one separator per word is counted
(`l += len(x) + 1`); the output is in popping order. -/
def promptTake : List String → Nat → List String
  | [], _ => []
  | x :: rest, l => if l < 200 then x :: promptTake rest (l + x.length + 1) else []

/-- `OnlineASRProcessor.prompt(self)` (source lines 136-155): the pair
(prompt, context). -/
def OState.prompt (s : OState) : String × String :=
  let k := walkLoop (s.commited.map W.b) s.buffer_time_offset (s.commited.length - 1)
  let p := (s.commited.take k).map W.t
  (String.intercalate s.sep (promptTake p.reverse 0).reverse,
   String.intercalate s.sep ((s.commited.drop k).map W.t))

/-- `OnlineASRProcessor.chunk_at(self, time)` (source lines 267-283): pop
committed words ending at or before `time` from the hypothesis buffer,
slice the audio buffer at the Python index
`int((time - buffer_time_offset) * 16000)` and set
`buffer_time_offset := time` (unconditionally). -/
def OState.chunk_at (s : OState) (time : ℚ) : OState :=
  { s with transcript_buffer := s.transcript_buffer.pop_commited time
           audio_buffer :=
             pySliceFrom s.audio_buffer (pyInt ((time - s.buffer_time_offset) * 16000))
           buffer_time_offset := time }

/-- The discard loop of `chunk_completed_segment` (source lines 256-259) on
the REVERSED list of segment end times (`ends[-1]` is the head, `ends[-2]`
the second element): while more than two segments remain and the
second-to-last end plus offset lies after `t`, drop the last segment. -/
def segLoopRev (off t : ℚ) : List ℚ → List ℚ
  | e0 :: e1 :: e2 :: rest =>
    if t < e1 + off then segLoopRev off t (e1 :: e2 :: rest) else e0 :: e1 :: e2 :: rest
  | l => l

/-- The trim decision of `chunk_completed_segment` (source lines 256-264) on
the reversed end-time list: after the discard loop, `e = ends[-2] + offset`
is the trim point if `e ≤ t`, otherwise no trim. -/
def segDecisionRev (off t : ℚ) (r : List ℚ) : Option ℚ :=
  match segLoopRev off t r with
  | _ :: e1 :: _ => if e1 + off ≤ t then some (e1 + off) else none
  | _ => none

/-- `OnlineASRProcessor.chunk_completed_segment(self, res)` (source lines
244-264), with the recognizer reply `self.asr.segments_end_ts(res)` passed
as `ends`; `t` is the end of the last committed word. -/
def OState.chunk_completed_segment (s : OState) (ends : List ℚ) : OState :=
  if s.commited = [] then s
  else
    let t := (s.commited.getLastD (W.mk 0 0 "")).b
    if ends.length ≤ 1 then s
    else
      match segDecisionRev s.buffer_time_offset t ends.reverse with
      | some e => s.chunk_at e
      | none => s

/-- Evaluation of the f-string in `finish`'s `logger.debug` (source line
318).  Python evaluates f-string interpolations eagerly: with an empty tail
`f[0] * 1000` is `None * 1000` and raises TypeError; with a non-empty tail,
`f[2][0]` raises IndexError when the text is empty, and otherwise formatting
the string `f[2][0] * 1000` with the float format code `.0f` raises
ValueError.  Every path raises. -/
def finishLog (f : Option ℚ × Option ℚ × String) : Except String Unit :=
  match f.1 with
  | none => Except.error "TypeError: unsupported operand types for *: NoneType and int"
  | some _ =>
    match f.2.1 with
    | none => Except.error "TypeError: unsupported operand types for *: NoneType and int"
    | some _ =>
      if f.2.2.length = 0 then Except.error "IndexError: string index out of range"
      else Except.error "ValueError: unknown format code f for object of type str"

/-- `OnlineASRProcessor.finish(self)` (source lines 312-320).  The pair is
(outcome, state after the call); when the debug line raises, the state
mutations placed after it (`buffer_time_offset += len(audio)/16000`) are not
applied. -/
def OState.finish (s : OState) : Except String (Option ℚ × Option ℚ × String) × OState :=
  let f := concatenate_tsw s.sep s.transcript_buffer.complete
  match finishLog f with
  | Except.error e => (Except.error e, s)
  | Except.ok _ =>
    (Except.ok f,
     { s with buffer_time_offset :=
        s.buffer_time_offset + (s.audio_buffer.length : ℚ) / 16000 })

/-- `OnlineASRProcessor.process_iter(self)` (source lines 157-218).  The
black-box recognizer reply for the current window is passed in:
`tsw = self.asr.ts_words(res)` and `ends = self.asr.segments_end_ts(res)`
(window-local).  The prompt is computed only for the recognizer call and
logging.  When `buffer_trimming_way == "sentence"`, the call
`self.chunk_completed_sentence(self.commited)` (source line 188) raises
TypeError — `chunk_completed_sentence` (source line 220) is defined with no
parameter besides `self`, so the call never enters the method body — and the
state keeps the mutations performed before the raise. -/
def OState.process_iter (s : OState) (tsw : List W) (ends : List ℚ) :
    Except String (Option ℚ × Option ℚ × String) × OState :=
  let fr := (s.transcript_buffer.insert tsw s.buffer_time_offset).flush
  let s1 := { s with transcript_buffer := fr.2, commited := s.commited ++ fr.1 }
  let completed := concatenate_tsw s.sep fr.1
  if s1.buffer_trimming_way = "sentence" then
    (Except.error
      "TypeError: chunk_completed_sentence() takes 1 positional argument but 2 were given",
     s1)
  else
    let s2 :=
      if s1.buffer_trimming_sec < (s1.audio_buffer.length : ℚ) / 16000 then
        s1.chunk_completed_segment ends
      else s1
    (Except.ok completed, s2)

theorem finishLog_error (f : Option ℚ × Option ℚ × String) :
    ∃ e, finishLog f = Except.error e := by
  obtain ⟨b, e2, t⟩ := f
  cases b with
  | none => exact ⟨_, rfl⟩
  | some q =>
    cases e2 with
    | none => exact ⟨_, rfl⟩
    | some q2 =>
      by_cases h : t.length = 0
      · exact ⟨"IndexError: string index out of range", by simp [finishLog, h]⟩
      · exact ⟨"ValueError: unknown format code f for object of type str",
          by simp [finishLog, h]⟩

theorem finish_always_error (s : OState) : ∃ e, s.finish = (Except.error e, s) := by
  obtain ⟨e, he⟩ := finishLog_error (concatenate_tsw s.sep s.transcript_buffer.complete)
  exact ⟨e, by simp [OState.finish, he]⟩

/-- C2: the claim says `finish()` returns the concatenation of the
uncommitted tail (or `(None, None, "")` when the tail is empty), advances
`buffer_time_offset` by `len(audio_buffer)/16000` and returns normally.  The
code instead always raises while evaluating the `logger.debug` f-string
(`f[0]*1000` is `None*1000` on the empty tail; otherwise the string
`f[2][0]*1000` is formatted with the float format code `.0f`), so `finish`
never returns and never advances `buffer_time_offset`: at every state the
embedded `finish` produces an exception and leaves the state unchanged. -/
theorem C2_finish_always_raises :
    ∀ s : OState, ∃ e, s.finish = (Except.error e, s) :=
  finish_always_error

/-- C3: the claim says `process_iter` with trim policy "sentence" attempts a
sentence-boundary trim over all of `commited` and never raises from that
attempt.  The code instead always raises TypeError there:
`chunk_completed_sentence` is called with the argument `self.commited` but
is defined with no parameter, so for every state with
`buffer_trimming_way == "sentence"` and every recognizer reply the call
errors. -/
theorem C3_sentence_trim_raises :
    ∀ (s : OState) (tsw : List W) (ends : List ℚ),
      s.buffer_trimming_way = "sentence" →
      (s.process_iter tsw ends).1 =
        Except.error
          "TypeError: chunk_completed_sentence() takes 1 positional argument but 2 were given" := by
  intro s tsw ends h
  simp [OState.process_iter, h]

/-- A concrete `OnlineASRProcessor` state with `buffer_trimming =
("sentence", 15)`. -/
def oSentence : OState :=
  { sep := " ", buffer_trimming_way := "sentence", buffer_trimming_sec := 15,
    audio_buffer := [], transcript_buffer := hbInit, buffer_time_offset := 0,
    commited := [] }

/-- C3 witness: at a fresh sentence-mode processor with an empty recognizer
reply, `process_iter` raises. -/
theorem C3_sentence_trim_raises_witness :
    oSentence.buffer_trimming_way = "sentence" ∧
      (oSentence.process_iter [] []).1 =
        Except.error
          "TypeError: chunk_completed_sentence() takes 1 positional argument but 2 were given" :=
  ⟨rfl, C3_sentence_trim_raises oSentence [] [] rfl⟩

/-- A concrete `OnlineASRProcessor` state whose window starts at 1 s. -/
def c4state : OState :=
  { sep := " ", buffer_trimming_way := "segment", buffer_trimming_sec := 15,
    audio_buffer := [], transcript_buffer := hbInit, buffer_time_offset := 1,
    commited := [] }

/-- C4 counterexample: the claim says that for `t < buffer_time_offset`,
`chunk_at(t)` is a no-op leaving the whole state unchanged; in the code the
call still sets `buffer_time_offset := t`, so at `t = 0 <
buffer_time_offset = 1` the state changes. -/
theorem C4_counterexample : c4state.chunk_at 0 ≠ c4state := by
  intro h
  have h1 := congrArg OState.buffer_time_offset h
  norm_num [OState.chunk_at, c4state] at h1

/-- C4 amended: for `t ≥ buffer_time_offset`, `chunk_at(t)` behaves exactly
as the claim states — it drops from the front of the hypothesis buffer's
`commited_in_buffer` the words ending at or before `t`, drops the first
`⌊(t - buffer_time_offset) * 16000⌋` samples of `audio_buffer` and sets
`buffer_time_offset := t`.  For `t < buffer_time_offset` the call is NOT a
no-op: it still performs the word drop and the (Python, negative-index)
slice and unconditionally sets `buffer_time_offset := t`. -/
theorem C4_chunk_at_amended :
    ∀ (s : OState) (t : ℚ),
      (s.buffer_time_offset ≤ t →
        s.chunk_at t =
          { s with
              transcript_buffer :=
                { s.transcript_buffer with
                    commited_in_buffer :=
                      s.transcript_buffer.commited_in_buffer.dropWhile
                        (fun w => decide (w.b ≤ t)) }
              audio_buffer :=
                s.audio_buffer.drop (⌊(t - s.buffer_time_offset) * 16000⌋).toNat
              buffer_time_offset := t })
      ∧ (s.chunk_at t).buffer_time_offset = t := by
  intro s t
  refine ⟨?_, rfl⟩
  intro h
  have hc : (0 : ℚ) ≤ (t - s.buffer_time_offset) * 16000 :=
    mul_nonneg (by linarith) (by norm_num)
  have h1 : pyInt ((t - s.buffer_time_offset) * 16000)
      = ⌊(t - s.buffer_time_offset) * 16000⌋ := by
    simp [pyInt, hc]
  have h2 : (0 : ℤ) ≤ ⌊(t - s.buffer_time_offset) * 16000⌋ :=
    Int.floor_nonneg.mpr hc
  simp [OState.chunk_at, HB.pop_commited, pySliceFrom, pyIdx, h1, h2]

/-- C4 witness: the amended characterization applied at `t = 2 ≥
buffer_time_offset = 1`. -/
theorem C4_chunk_at_amended_witness :
    c4state.buffer_time_offset ≤ 2 ∧
      c4state.chunk_at 2 =
        { c4state with
            transcript_buffer :=
              { c4state.transcript_buffer with
                  commited_in_buffer :=
                    c4state.transcript_buffer.commited_in_buffer.dropWhile
                      (fun w => decide (w.b ≤ 2)) }
            audio_buffer :=
              c4state.audio_buffer.drop (⌊((2 : ℚ) - c4state.buffer_time_offset) * 16000⌋).toNat
            buffer_time_offset := 2 } := by
  have h : c4state.buffer_time_offset ≤ 2 := by norm_num [c4state]
  exact ⟨h, (C4_chunk_at_amended c4state 2).1 h⟩

/-- Second-to-last element of a list (0 when it does not exist) — the
"second-to-last segment end" the specification picks. -/
def specStl (ends : List ℚ) : ℚ :=
  (ends.dropLast).getLastD 0

/-- The specification's segment-trim rule, transcribed from its words: pick
the second-to-last segment end, convert to absolute time by adding the
offset; while there are more than two segments and this candidate lies after
`t` (the end of the last committed word), discard the last segment and try
again; return the candidate if it is `≤ t`, otherwise no trim. -/
def specSegTrimTime (off t : ℚ) (ends : List ℚ) : Option ℚ :=
  if h : 2 < ends.length ∧ t < specStl ends + off then
    specSegTrimTime off t ends.dropLast
  else if specStl ends + off ≤ t then some (specStl ends + off) else none
termination_by ends.length
decreasing_by
  obtain ⟨h1, _⟩ := h
  simp only [List.length_dropLast]
  omega

theorem specStl_reverse (e0 e1 : ℚ) (rest : List ℚ) :
    specStl ((e0 :: e1 :: rest).reverse) = e1 := by
  simp [specStl, List.reverse_cons, List.dropLast_concat,
    List.getLastD_eq_getLast?, List.getLast?_reverse]

theorem dropLast_reverse_cons (e0 : ℚ) (rest : List ℚ) :
    ((e0 :: rest).reverse).dropLast = rest.reverse := by
  simp [List.reverse_cons, List.dropLast_concat]

theorem segDecisionRev_spec (off t : ℚ) :
    ∀ r : List ℚ, 2 ≤ r.length →
      segDecisionRev off t r = specSegTrimTime off t r.reverse := by
  intro r
  induction r with
  | nil => intro h; simp at h
  | cons e0 rest ih =>
    intro hlen
    cases rest with
    | nil => simp at hlen
    | cons e1 rest2 =>
      cases rest2 with
      | nil =>
        rw [specSegTrimTime, dif_neg (by simp)]
        simp [segDecisionRev, segLoopRev, specStl]
      | cons e2 rest3 =>
        rw [specSegTrimTime]
        have hlen2 : 2 < ((e0 :: e1 :: e2 :: rest3).reverse).length := by
          simp
        by_cases hc : t < e1 + off
        · rw [dif_pos ⟨hlen2, by rw [specStl_reverse]; exact hc⟩,
            dropLast_reverse_cons, ← ih (by simp)]
          simp [segDecisionRev, segLoopRev, hc]
        · rw [dif_neg (by rw [specStl_reverse]; tauto), specStl_reverse]
          simp [segDecisionRev, segLoopRev, hc]

/-- C6: `chunk_completed_segment` follows the specification's segment-trim
rule: with non-empty `commited` and at least two recognizer segment ends, it
trims exactly at the time the rule computes (second-to-last end + offset,
discarding trailing segments while more than two remain and the candidate
lies after the last committed word's end; trim iff the final candidate is
`≤` that end); with one segment or fewer, or empty `commited`, it changes
nothing; and in scenario S4 with ends `[4.0, 8.0, 12.0, 15.8]` (and the last
committed word ending between `8 + offset` and `12 + offset`) it trims at
`8.0 + buffer_time_offset`. -/
theorem C6_segment_trim :
    ∀ (s : OState) (ends : List ℚ),
      (s.commited ≠ [] → 2 ≤ ends.length →
        s.chunk_completed_segment ends =
          (specSegTrimTime s.buffer_time_offset
              ((s.commited.getLastD (W.mk 0 0 "")).b) ends).elim
            s (fun e => s.chunk_at e))
      ∧ ((s.commited = [] ∨ ends.length ≤ 1) → s.chunk_completed_segment ends = s)
      ∧ (s.commited ≠ [] →
          8 + s.buffer_time_offset ≤ (s.commited.getLastD (W.mk 0 0 "")).b →
          (s.commited.getLastD (W.mk 0 0 "")).b < 12 + s.buffer_time_offset →
          s.chunk_completed_segment [4, 8, 12, 79/5] =
            s.chunk_at (8 + s.buffer_time_offset)) := by
  intro s ends
  have hmain : ∀ es : List ℚ, s.commited ≠ [] → 2 ≤ es.length →
      s.chunk_completed_segment es =
        (specSegTrimTime s.buffer_time_offset
            ((s.commited.getLastD (W.mk 0 0 "")).b) es).elim
          s (fun e => s.chunk_at e) := by
    intro es hne h2
    have hrev : 2 ≤ es.reverse.length := by simpa using h2
    rw [OState.chunk_completed_segment, if_neg hne, if_neg (by omega)]
    rw [segDecisionRev_spec _ _ es.reverse hrev, List.reverse_reverse]
    cases specSegTrimTime s.buffer_time_offset
        ((s.commited.getLastD (W.mk 0 0 "")).b) es with
    | none => simp
    | some e => simp
  refine ⟨hmain ends, ?_, ?_⟩
  · intro h
    rcases h with h | h
    · simp [OState.chunk_completed_segment, h]
    · rw [OState.chunk_completed_segment]
      by_cases hne : s.commited = []
      · simp [hne]
      · simp [hne, if_pos h]
  · intro hne h8 h12
    rw [hmain [4, 8, 12, 79/5] hne (by norm_num)]
    have hval : ∀ tv : ℚ, 8 + s.buffer_time_offset ≤ tv →
        tv < 12 + s.buffer_time_offset →
        specSegTrimTime s.buffer_time_offset tv [4, 8, 12, 79/5]
          = some (8 + s.buffer_time_offset) := by
      intro tv hv8 hv12
      rw [specSegTrimTime,
        dif_pos ⟨by simp, by simp [specStl]; linarith⟩]
      rw [show ([4, 8, 12, 79/5] : List ℚ).dropLast = [4, 8, 12] by simp]
      rw [specSegTrimTime, dif_neg (by simp [specStl]; linarith)]
      rw [if_pos (by simp [specStl]; linarith)]
      simp [specStl]
    rw [hval _ h8 h12]
    simp

/-- A processor state for scenario S4: the last committed word ends at 10,
between segment ends 8 and 12 (window times, offset 0). -/
def oS4 : OState :=
  { sep := " ", buffer_trimming_way := "segment", buffer_trimming_sec := 15,
    audio_buffer := [], transcript_buffer := hbInit, buffer_time_offset := 0,
    commited := [⟨0, 10, "w"⟩] }

/-- C6 witness: scenario S4 applied at a concrete state — with segment ends
`[4, 8, 12, 15.8]` the processor trims at `8 + buffer_time_offset`. -/
theorem C6_segment_trim_witness :
    (oS4.commited ≠ []
      ∧ 8 + oS4.buffer_time_offset ≤ (oS4.commited.getLastD (W.mk 0 0 "")).b
      ∧ (oS4.commited.getLastD (W.mk 0 0 "")).b < 12 + oS4.buffer_time_offset)
    ∧ oS4.chunk_completed_segment [4, 8, 12, 79/5]
        = oS4.chunk_at (8 + oS4.buffer_time_offset) := by
  have h1 : oS4.commited ≠ [] := by simp [oS4]
  have h2 : 8 + oS4.buffer_time_offset ≤ (oS4.commited.getLastD (W.mk 0 0 "")).b := by
    norm_num [oS4]
  have h3 : (oS4.commited.getLastD (W.mk 0 0 "")).b < 12 + oS4.buffer_time_offset := by
    norm_num [oS4]
  exact ⟨⟨h1, h2, h3⟩, (C6_segment_trim oS4 [4, 8, 12, 79/5]).2.2 h1 h2 h3⟩

theorem walkLoop_sorted_countP (es : List ℚ) (off : ℚ)
    (hs : List.Sorted (fun x y => x ≤ y) es) :
    ∀ m : Nat, m ≤ es.length →
      walkLoop es off m = (es.take m).countP (fun e => decide (e ≤ off)) := by
  intro m
  induction m with
  | zero => intro _; simp [walkLoop]
  | succ k ih =>
    intro hm
    have hk : k < es.length := by omega
    have hget : es[k]? = some es[k] := List.getElem?_eq_getElem hk
    have hmem : es[k] ∈ es.drop k := by
      rw [List.drop_eq_getElem_cons hk]
      exact List.mem_cons_self _ _
    simp only [walkLoop, hget]
    by_cases hc : off < es[k]
    · rw [if_pos hc, ih (le_of_lt hk), List.take_succ, List.countP_append, hget]
      have hfalse : (decide (es[k] ≤ off)) = false := by simp [not_le.mpr hc]
      simp [hfalse]
    · rw [if_neg hc]
      have hall : ∀ a ∈ es.take (k + 1), (fun e => decide (e ≤ off)) a = true := by
        intro a ha
        rw [List.take_succ, hget] at ha
        simp only [Option.toList_some, List.mem_append, List.mem_singleton] at ha
        rw [decide_eq_true_eq]
        rcases ha with h1 | h1
        · exact le_trans (hs.rel_of_mem_take_of_mem_drop h1 hmem) (not_lt.mp hc)
        · rw [h1]; exact not_lt.mp hc
      rw [List.countP_eq_length.mpr hall, List.length_take, Nat.min_eq_left hm]

theorem sorted_filter_eq_take (off : ℚ) :
    ∀ l : List W, List.Sorted (fun x y => x ≤ y) (l.map W.b) →
      l.filter (fun w => decide (w.b ≤ off))
        = l.take (l.countP (fun w => decide (w.b ≤ off))) := by
  intro l
  induction l with
  | nil => intro _; simp
  | cons w ws ih =>
    intro hs
    rw [List.map_cons, List.sorted_cons] at hs
    obtain ⟨hhead, htail⟩ := hs
    by_cases hc : w.b ≤ off
    · have hp : (decide (w.b ≤ off)) = true := by simp [hc]
      rw [List.filter_cons, List.countP_cons, hp]
      simp only [if_true, cond_true]
      rw [List.take_succ_cons]
      exact congrArg (List.cons w) (ih htail)
    · have hp : (decide (w.b ≤ off)) = false := by simp [hc]
      have hnone : ∀ x ∈ ws, ¬ (x.b ≤ off) := by
        intro x hx hle
        exact hc (le_trans (hhead x.b (List.mem_map_of_mem W.b hx)) hle)
      have hfil : ws.filter (fun w => decide (w.b ≤ off)) = [] :=
        List.filter_eq_nil_iff.mpr (fun a ha => by simp [hnone a ha])
      have hcnt : ws.countP (fun w => decide (w.b ≤ off)) = 0 := by
        rw [List.countP_eq_zero]
        intro a ha
        simp [hnone a ha]
      rw [List.filter_cons, List.countP_cons, hp, hfil, hcnt]
      simp

/-- C8 amended: in `process_iter`, the prompt is built from the committed
words with `end ≤ buffer_time_offset` among all but the LAST committed word
(the backward walk starts at index `len(commited) - 1`, so the final
committed word is always kept as context even when its end lies before the
window); of those, the suffix whose combined text length (one separator per
word) just exceeds 200 characters is taken in original order, joined with
the separator.  Stated for states whose committed end times are
non-decreasing (the data-model invariant). -/
theorem C8_prompt_amended :
    ∀ s : OState,
      List.Sorted (fun x y => x ≤ y) (s.commited.map W.b) →
      (s.prompt).1 =
        String.intercalate s.sep
          ((promptTake ((((s.commited.dropLast).filter
              (fun w => decide (w.b ≤ s.buffer_time_offset))).map W.t).reverse) 0).reverse) := by
  intro s hs
  have hm : s.commited.length - 1 ≤ (s.commited.map W.b).length := by
    simp only [List.length_map]
    omega
  have hk := walkLoop_sorted_countP (s.commited.map W.b) s.buffer_time_offset hs
    (s.commited.length - 1) hm
  have htake : (s.commited.map W.b).take (s.commited.length - 1)
      = (s.commited.dropLast).map W.b := by
    rw [List.dropLast_eq_take, List.map_take]
  have hcount : walkLoop (s.commited.map W.b) s.buffer_time_offset (s.commited.length - 1)
      = (s.commited.dropLast).countP (fun w => decide (w.b ≤ s.buffer_time_offset)) := by
    rw [hk, htake, List.countP_map]
    rfl
  have hsort2 : List.Sorted (fun x y => x ≤ y) ((s.commited.dropLast).map W.b) :=
    hs.sublist (List.Sublist.map W.b (List.dropLast_sublist s.commited))
  have hfilter := sorted_filter_eq_take s.buffer_time_offset s.commited.dropLast hsort2
  have hcle : (s.commited.dropLast).countP (fun w => decide (w.b ≤ s.buffer_time_offset))
      ≤ s.commited.length - 1 := by
    have := List.countP_le_length
      (p := fun w => decide (w.b ≤ s.buffer_time_offset)) (l := s.commited.dropLast)
    simpa [List.length_dropLast] using this
  have htd : ∀ c : Nat, c ≤ s.commited.length - 1 →
      (s.commited.dropLast).take c = s.commited.take c := by
    intro c h
    rw [List.dropLast_eq_take, List.take_take, inf_eq_left.mpr h]
  have htakeeq : s.commited.take
      ((s.commited.dropLast).countP (fun w => decide (w.b ≤ s.buffer_time_offset)))
      = (s.commited.dropLast).filter (fun w => decide (w.b ≤ s.buffer_time_offset)) := by
    rw [hfilter, htd _ hcle]
  rw [OState.prompt]
  simp only [hcount, htakeeq]

/-- The claim's prompt rule, as stated: built from the suffix (just
exceeding 200 characters) of ALL committed words whose `end ≤
buffer_time_offset`. -/
def specPromptClaim (s : OState) : String :=
  String.intercalate s.sep
    ((promptTake (((s.commited.filter
        (fun w => decide (w.b ≤ s.buffer_time_offset))).map W.t).reverse) 0).reverse)

/-- A processor state with a single committed word ending before the
current window. -/
def c8cex : OState :=
  { sep := " ", buffer_trimming_way := "segment", buffer_trimming_sec := 15,
    audio_buffer := [], transcript_buffer := hbInit, buffer_time_offset := 5,
    commited := [⟨0, 1, "a"⟩] }

/-- C8 counterexample: with one committed word ending at 1 ≤
buffer_time_offset = 5, the claim says the word is eligible for the prompt
(which would then be "a"), but the source walk starts at `len(commited) - 1
= 0` and never includes the last committed word: the prompt is "". -/
theorem C8_counterexample : (c8cex.prompt).1 ≠ specPromptClaim c8cex := by
  have h1 : (c8cex.prompt).1 = "" := rfl
  have h2 : specPromptClaim c8cex = "a" := by
    have hd : (decide ((1:ℚ) ≤ 5)) = true := by norm_num
    simp only [specPromptClaim, c8cex, List.filter, hd, promptTake, List.map,
      List.reverse_singleton]
    decide
  rw [h1, h2]
  decide

/-- A sorted two-word committed history entirely before the window. -/
def c8wit : OState :=
  { sep := " ", buffer_trimming_way := "segment", buffer_trimming_sec := 15,
    audio_buffer := [], transcript_buffer := hbInit, buffer_time_offset := 5,
    commited := [⟨0, 1, "a"⟩, ⟨1, 2, "b"⟩] }

/-- C8 witness: the amended prompt characterization applied at a concrete
sorted state. -/
theorem C8_prompt_amended_witness :
    List.Sorted (fun x y => x ≤ y) (c8wit.commited.map W.b) ∧
      (c8wit.prompt).1 =
        String.intercalate c8wit.sep
          ((promptTake ((((c8wit.commited.dropLast).filter
              (fun w => decide (w.b ≤ c8wit.buffer_time_offset))).map W.t).reverse) 0).reverse) := by
  have hs : List.Sorted (fun x y => x ≤ y) (c8wit.commited.map W.b) := by
    norm_num [c8wit, List.sorted_cons]
  exact ⟨hs, C8_prompt_amended c8wit hs⟩

/-- A VAD reply for one ingested chunk, with absolute frame positions at
16 kHz: the three event shapes returned by the (black-box) VAD iterator —
start only, end only, or a complete voiced segment. -/
inductive VadRes where
  | startOnly (f : Int)
  | endOnly (f : Int)
  | both (s e : Int)
deriving DecidableEq, Repr

/-- State of `VACOnlineASRProcessor` (source lines 344-383): the inner
online processor, the configured `online_chunk_size` (seconds), the
voiced-sample accumulator, the finalization flag, the voice status, the
local pre-online audio buffer and its absolute offset in frames. -/
structure VACState where
  online_chunk_size : ℚ
  online : OState
  current_online_chunk_buffer_size : Nat
  is_currently_final : Bool
  status : Option String
  audio_buffer : List ℚ
  buffer_offset : Nat
deriving DecidableEq, Repr

/-- `VACOnlineASRProcessor.init(self)` (source lines 370-379), minus the
black-box `self.vac.reset_states()`. -/
def VACState.init (v : VACState) : VACState :=
  { v with online := v.online.initAt none
           current_online_chunk_buffer_size := 0
           is_currently_final := false
           status := none
           audio_buffer := []
           buffer_offset := 0 }

/-- `VACOnlineASRProcessor.clear_buffer(self)` (source lines 381-383). -/
def VACState.clear_buffer (v : VACState) : VACState :=
  { v with buffer_offset := v.buffer_offset + v.audio_buffer.length
           audio_buffer := [] }

/-- `VACOnlineASRProcessor.insert_audio_chunk(self, audio)` (source lines
385-428), with the black-box VAD reply `self.vac(audio)` passed as `res`.
The chunk is appended to the local buffer, then the four VAD cases are
handled; frame indices relative to the local buffer may be negative and are
sliced with Python semantics. -/
def VACState.insert_audio_chunk (v0 : VACState) (chunk : List ℚ) (res : Option VadRes) :
    VACState :=
  let v := { v0 with audio_buffer := v0.audio_buffer ++ chunk }
  match res with
  | some (VadRes.startOnly f) =>
    let frame : Int := f - (v.buffer_offset : Int)
    let send := pySliceFrom v.audio_buffer frame
    VACState.clear_buffer
      { v with status := some "voice"
               online := (v.online.initAt
                  (some (((frame + (v.buffer_offset : Int) : Int) : ℚ) / 16000))).insert_audio_chunk send
               current_online_chunk_buffer_size :=
                 v.current_online_chunk_buffer_size + send.length }
  | some (VadRes.endOnly f) =>
    let frame : Int := f - (v.buffer_offset : Int)
    let send := pySliceTo v.audio_buffer frame
    VACState.clear_buffer
      { v with status := some "nonvoice"
               online := v.online.insert_audio_chunk send
               current_online_chunk_buffer_size :=
                 v.current_online_chunk_buffer_size + send.length
               is_currently_final := true }
  | some (VadRes.both fs fe) =>
    let beg : Int := fs - (v.buffer_offset : Int)
    let fin : Int := fe - (v.buffer_offset : Int)
    let send := pySlice v.audio_buffer beg fin
    VACState.clear_buffer
      { v with status := some "nonvoice"
               online := (v.online.initAt
                  (some (((beg + (v.buffer_offset : Int) : Int) : ℚ) / 16000))).insert_audio_chunk send
               current_online_chunk_buffer_size :=
                 v.current_online_chunk_buffer_size + send.length
               is_currently_final := true }
  | none =>
    if v.status = some "voice" then
      VACState.clear_buffer
        { v with online := v.online.insert_audio_chunk v.audio_buffer
                 current_online_chunk_buffer_size :=
                   v.current_online_chunk_buffer_size + v.audio_buffer.length }
    else
      { v with buffer_offset := v.buffer_offset + (v.audio_buffer.length - 16000)
               audio_buffer := v.audio_buffer.drop (v.audio_buffer.length - 16000) }

/-- `VACOnlineASRProcessor.finish(self)` (source lines 444-448): delegate to
the inner `finish`; the accumulator reset and the flag clearing are written
AFTER the inner call, so when it raises they never execute. -/
def VACState.finish (v : VACState) :
    Except String (Option ℚ × Option ℚ × String) × VACState :=
  let r := v.online.finish
  match r.1 with
  | Except.error e => (Except.error e, { v with online := r.2 })
  | Except.ok f =>
    (Except.ok f,
     { v with online := r.2
              current_online_chunk_buffer_size := 0
              is_currently_final := false })

/-- `VACOnlineASRProcessor.process_iter(self)` (source lines 430-442): if
finalizing, call `self.finish()`; else if the voiced-sample accumulator
exceeds `SAMPLING_RATE * online_chunk_size`, reset it and delegate to the
inner `process_iter` (whose recognizer reply is passed in); else return the
empty triple. -/
def VACState.process_iter (v : VACState) (tsw : List W) (ends : List ℚ) :
    Except String (Option ℚ × Option ℚ × String) × VACState :=
  if v.is_currently_final then
    v.finish
  else if (16000 : ℚ) * v.online_chunk_size < (v.current_online_chunk_buffer_size : ℚ) then
    let r := ({ v with current_online_chunk_buffer_size := 0 }).online.process_iter tsw ends
    (r.1, { v with current_online_chunk_buffer_size := 0, online := r.2 })
  else
    (Except.ok (none, none, ""), v)

/-- C9: the claim describes the VAC `process_iter` as a three-way dispatch
whose final branch "returns the inner processor's finish() result and clears
the final flag".  The two non-final branches behave exactly as claimed (on
overflow of the accumulator: reset it and delegate to the inner
`process_iter`; otherwise: return the empty triple and change nothing), but
in the final branch the inner `finish()` always raises (the C2
debug-formatting bug) and `VACOnlineASRProcessor.finish` propagates the
exception before reaching the statements that reset the accumulator and
clear the flag: nothing is returned and `is_currently_final` stays set. -/
theorem C9_vac_dispatch :
    ∀ (v : VACState) (tsw : List W) (ends : List ℚ),
      (v.is_currently_final = true →
        ∃ e, (v.process_iter tsw ends).1 = Except.error e
          ∧ (v.process_iter tsw ends).2.is_currently_final = true)
      ∧ (v.is_currently_final = false →
         (16000 : ℚ) * v.online_chunk_size < (v.current_online_chunk_buffer_size : ℚ) →
         v.process_iter tsw ends =
           ((v.online.process_iter tsw ends).1,
            { v with current_online_chunk_buffer_size := 0
                     online := (v.online.process_iter tsw ends).2 }))
      ∧ (v.is_currently_final = false →
         ¬ ((16000 : ℚ) * v.online_chunk_size < (v.current_online_chunk_buffer_size : ℚ)) →
         v.process_iter tsw ends = (Except.ok (none, none, ""), v)) := by
  intro v tsw ends
  refine ⟨?_, ?_, ?_⟩
  · intro hf
    obtain ⟨e, he⟩ := finish_always_error v.online
    refine ⟨e, ?_, ?_⟩ <;>
      simp [VACState.process_iter, VACState.finish, hf, he]
  · intro hf hacc
    simp [VACState.process_iter, hf, hacc]
  · intro hf hacc
    simp [VACState.process_iter, hf, hacc]

/-- A base `OnlineASRProcessor` state with segment trimming. -/
def oBase : OState :=
  { sep := " ", buffer_trimming_way := "segment", buffer_trimming_sec := 15,
    audio_buffer := [], transcript_buffer := hbInit, buffer_time_offset := 0,
    commited := [] }

/-- A VAC state whose final flag is set. -/
def vacFinal : VACState :=
  { online_chunk_size := 1, online := oBase, current_online_chunk_buffer_size := 0,
    is_currently_final := true, status := none, audio_buffer := [], buffer_offset := 0 }

/-- A VAC state with the final flag clear and an empty accumulator. -/
def vacIdle : VACState :=
  { online_chunk_size := 1, online := oBase, current_online_chunk_buffer_size := 0,
    is_currently_final := false, status := none, audio_buffer := [], buffer_offset := 0 }

/-- C9 witness: the final-flag branch propagates an exception and keeps the
flag at a concrete finalizing state, and the idle branch returns the empty
triple at a concrete idle state. -/
theorem C9_vac_dispatch_witness :
    (vacFinal.is_currently_final = true ∧
      ∃ e, (vacFinal.process_iter [] []).1 = Except.error e
        ∧ (vacFinal.process_iter [] []).2.is_currently_final = true)
    ∧ (vacIdle.is_currently_final = false
        ∧ ¬ ((16000 : ℚ) * vacIdle.online_chunk_size
              < (vacIdle.current_online_chunk_buffer_size : ℚ))
        ∧ vacIdle.process_iter [] [] = (Except.ok (none, none, ""), vacIdle)) := by
  have h1 : vacFinal.is_currently_final = true := rfl
  have h2 : vacIdle.is_currently_final = false := rfl
  have h3 : ¬ ((16000 : ℚ) * vacIdle.online_chunk_size
      < (vacIdle.current_online_chunk_buffer_size : ℚ)) := by
    norm_num [vacIdle]
  exact ⟨⟨h1, (C9_vac_dispatch vacFinal [] []).1 h1⟩,
    h2, h3, (C9_vac_dispatch vacIdle [] []).2.2 h2 h3⟩

/-- A sequence of `insert_audio_chunk` calls, each with its chunk and its
VAD reply. -/
def VACState.ingest (v : VACState) (calls : List (List ℚ × Option VadRes)) : VACState :=
  calls.foldl (fun s c => s.insert_audio_chunk c.1 c.2) v

theorem insert_audio_chunk_accounting (v : VACState) (chunk : List ℚ) (res : Option VadRes) :
    (v.insert_audio_chunk chunk res).buffer_offset
        + (v.insert_audio_chunk chunk res).audio_buffer.length
      = v.buffer_offset + v.audio_buffer.length + chunk.length := by
  cases res with
  | none =>
    by_cases h : v.status = some "voice" <;>
      simp [VACState.insert_audio_chunk, VACState.clear_buffer, h] <;>
      omega
  | some r =>
    cases r <;>
      simp [VACState.insert_audio_chunk, VACState.clear_buffer] <;>
      omega

/-- C10: in `VACOnlineASRProcessor`, after `init` and any sequence of
`insert_audio_chunk` calls with arbitrary chunks and VAD replies,
`buffer_offset` plus the length of the local `audio_buffer` equals the total
number of samples ingested — every branch (forwarding on voice start/end,
complete segments, plain voice, and the silence branch that retains only the
last second) preserves the accounting. -/
theorem C10_vac_accounting :
    ∀ (v0 : VACState) (calls : List (List ℚ × Option VadRes)),
      ((v0.init).ingest calls).buffer_offset
          + ((v0.init).ingest calls).audio_buffer.length
        = (calls.map (fun c => c.1.length)).sum := by
  intro v0 calls
  have main : ∀ (cs : List (List ℚ × Option VadRes)) (v : VACState),
      (v.ingest cs).buffer_offset + (v.ingest cs).audio_buffer.length
        = v.buffer_offset + v.audio_buffer.length
            + (cs.map (fun c => c.1.length)).sum := by
    intro cs
    induction cs with
    | nil => intro v; simp [VACState.ingest]
    | cons c rest ih =>
      intro v
      have hstep : VACState.ingest v (c :: rest)
          = VACState.ingest (v.insert_audio_chunk c.1 c.2) rest := by
        simp [VACState.ingest]
      rw [hstep, ih, insert_audio_chunk_accounting]
      simp [List.map_cons, List.sum_cons]
      omega
  rw [main]
  simp [VACState.init]

end OnlineAsr
